import Mathlib

set_option maxHeartbeats 1000000

/-!  Verification of the hydrological terrain-analysis pipeline
     (strm_analysis.py, strm_analysis_simple.py, strm_analysis_new.py).

     Grids are shallowly embedded as total functions with explicit bounds;
     float arrays are modelled over `ℚ` (exact arithmetic), with `Option ℚ`
     playing the role of arrays that may hold NaN, and `Option Nat` the role
     of a squared Euclidean distance that may be undefined (no stream cell). -/

/-- A dense 2-D raster grid: cell values are `data r c` for `r < height`, `c < width`. -/
structure Grid (α : Type) where
  height : Nat
  width : Nat
  data : Nat → Nat → α

/-- `binary_streams = (streams_numpy_array > 0).astype(np.uint8)` (strm_analysis.py:183). -/
def binary_streams (s : Grid Nat) : Grid Nat :=
  ⟨s.height, s.width, fun r c => if 0 < s.data r c then 1 else 0⟩

/-- Squared Euclidean distance between cells `(r,c)` and `(r',c')`, in cell units. -/
def sqCellDist (r c r' c' : Nat) : Nat :=
  (((r : Int) - (r' : Int)) ^ 2 + ((c : Int) - (c' : Int)) ^ 2).toNat

/-- The in-bounds cells of an `h × w` grid where `isZero` holds: the zero cells of the
    input of `distance_transform_edt`, i.e. the stream cells. -/
def zeroCells (isZero : Nat → Nat → Bool) (h w : Nat) : List (Nat × Nat) :=
  ((List.range h).product (List.range w)).filter fun q => isZero q.1 q.2

/-- Squared Euclidean distance from `(r,c)` to the nearest zero cell, as the plain
    minimum over all zero cells (`none` when there is no zero cell anywhere). -/
def bruteSqDist (isZero : Nat → Nat → Bool) (h w r c : Nat) : Option Nat :=
  ((zeroCells isZero h w).map fun q => sqCellDist r c q.1 q.2).min?

/-- First pass of the separable exact distance transform: for column `c'`, the minimal
    vertical offset from row `r` to a zero cell of that column. -/
def colPass (isZero : Nat → Nat → Bool) (h r c' : Nat) : Option Nat :=
  (((List.range h).filter fun r' => isZero r' c').map fun (r' : Nat) =>
    ((r : Int) - (r' : Int)).natAbs).min?

/-- Second pass: minimize, over all columns, the squared first-pass offset plus the
    squared horizontal offset.  This is the two-pass exact squared Euclidean distance
    transform computed by `scipy.ndimage.distance_transform_edt`. -/
def twoPassSqDist (isZero : Nat → Nat → Bool) (h w r c : Nat) : Option Nat :=
  ((List.range w).filterMap fun c' =>
    (colPass isZero h r c').map fun g => g ^ 2 + ((c : Int) - (c' : Int)).natAbs ^ 2).min?

/-- Comparison `distance > t` of the Euclidean distance (given as a squared distance)
    against a threshold, `sqrt d2 > t  ↔  t < 0 ∨ t² < d2`.  The `none` case (no zero
    cell anywhere in the distance-transform input) is modelled from the spec as an
    infinitely large distance, so the comparison holds: the spec fixes the degenerate
    zero-stream-cell case to "all-ones output", while the scipy call's behavior on an
    input without background cells is not observable in the sources. -/
def distGT (d : Option Nat) (t : ℚ) : Bool :=
  match d with
  | some d2 => decide (t < 0) || decide (t ^ 2 < (d2 : ℚ))
  | none => true

/-- `interfluves_by_distance = (distance_transform_edt(1 - binary_streams) > threshold)
    .astype(np.uint8)` (strm_analysis.py:184-186).  The input to the transform is
    `1 - b` for a binary mask `b`, whose zero cells are exactly the cells with `b = 1`.
    The pixel threshold (15 in the scripts) is kept as a parameter. -/
def interfluves_by_distance (b : Grid Nat) (t : ℚ) : Grid Nat :=
  ⟨b.height, b.width, fun r c =>
    if distGT (twoPassSqDist (fun r' c' => b.data r' c' == 1) b.height b.width r c) t
    then 1 else 0⟩

/-- `1 - streams_numpy_array` on a uint8 array (strm_analysis_new.py:212): NumPy
    evaluates this in uint8, i.e. with wraparound modulo 256. -/
def edtInputNew (v : Nat) : Nat := ((1 - (v : Int)) % 256).toNat

/-- A cell counts as a stream cell (a zero cell of the distance-transform input) in the
    WhiteboxTools variant iff `edtInputNew` of its loaded uint8 value is zero. -/
def newVariantIsStream (s : Grid Nat) (r c : Nat) : Bool :=
  edtInputNew (s.data r c) == 0

/-- Distance-variant interfluve classification of the WhiteboxTools script, which feeds
    the raw loaded uint8 stream raster (no binarization) into the distance transform. -/
def interfluves_by_distance_new (s : Grid Nat) (t : ℚ) : Grid Nat :=
  ⟨s.height, s.width, fun r c =>
    if distGT (twoPassSqDist (newVariantIsStream s) s.height s.width r c) t then 1 else 0⟩

/-- Index into an axis of size `m` after `np.pad(..., mode='reflect')` padding: offsets
    `-(m-1) ≤ i ≤ 2(m-1)` reflect about the edge cells without repeating them. -/
def reflectIdx (m : Nat) (i : Int) : Nat :=
  if i < 0 then (-i).toNat
  else if i < (m : Int) then i.toNat
  else (2 * ((m : Int) - 1) - i).toNat

/-- The in-bounds cells whose elevation is not the nodata sentinel. -/
def validCells (g : Grid ℚ) (nd : ℚ) : List (Nat × Nat) :=
  ((List.range g.height).product (List.range g.width)).filter fun q =>
    decide (g.data q.1 q.2 ≠ nd)

/-- `dem_mean_for_nan_replacement = np.mean(valid_dem_pixels) if valid_dem_pixels.size > 0
    else 0` (strm_analysis_simple.py:179). -/
def demMean (g : Grid ℚ) (nd : ℚ) : ℚ :=
  let vs := validCells g nd
  if vs.length = 0 then 0 else (vs.map fun q => g.data q.1 q.2).sum / (vs.length : ℚ)

/-- `dem_array_no_nodata = np.where(dem_mask_for_tpi, dem_mean_for_nan_replacement, dem)`
    (strm_analysis_simple.py:180): each nodata cell is substituted by the global mean of
    the valid cells. -/
def demNoNodata (g : Grid ℚ) (nd : ℚ) (r c : Nat) : ℚ :=
  if g.data r c = nd then demMean g nd else g.data r c

/-- The (reflected) grid positions covered by the `k × k` kernel centered at `(r,c)`
    of the reflect-padded array, `pad = k / 2`. -/
def windowCells (g : Grid ℚ) (k r c : Nat) : List (Nat × Nat) :=
  ((List.range k).product (List.range k)).map fun d =>
    (reflectIdx g.height ((r : Int) + (d.1 : Int) - ((k / 2 : Nat) : Int)),
     reflectIdx g.width ((c : Int) + (d.2 : Int) - ((k / 2 : Nat) : Int)))

/-- `mean_elevation_neighborhood`: the `k × k` windowed mean, via `generic_filter`
    with `np.mean` over the nodata-substituted, reflect-padded array, cropped back to
    the core region (strm_analysis_simple.py:182-187). -/
def localMean (g : Grid ℚ) (nd : ℚ) (k r c : Nat) : ℚ :=
  ((windowCells g k r c).map fun q => demNoNodata g nd q.1 q.2).sum / ((k : ℚ) * (k : ℚ))

/-- The local mean the spec prescribes instead: the mean over the non-nodata cells of
    the window only, `none` when every window cell is nodata.  Stated from the spec's
    words, for comparison with the source's `localMean`. -/
def localMeanSpec (g : Grid ℚ) (nd : ℚ) (k r c : Nat) : Option ℚ :=
  let vs := (windowCells g k r c).filter fun q => decide (g.data q.1 q.2 ≠ nd)
  if vs.length = 0 then none
  else some ((vs.map fun q => g.data q.1 q.2).sum / (vs.length : ℚ))

/-- `tpi = dem - mean_elevation_neighborhood` with `tpi[dem_mask] = np.nan`
    (strm_analysis_simple.py:189-190); `none` plays the role of NaN. -/
def tpi (g : Grid ℚ) (nd : ℚ) (k r c : Nat) : Option ℚ :=
  if g.data r c = nd then none else some (g.data r c - localMean g nd k r c)

/-- `interfluves_by_tpi = np.where(np.isnan(tpi), 0, (tpi > threshold)).astype(np.uint8)`
    (strm_analysis_simple.py:193). -/
def interfluves_by_tpi (g : Grid ℚ) (nd : ℚ) (k : Nat) (thr : ℚ) : Grid Nat :=
  ⟨g.height, g.width, fun r c =>
    match tpi g nd k r c with
    | none => 0
    | some v => if thr < v then 1 else 0⟩

/-- The combination step exactly as the source implements it
    (strm_analysis.py:249-256): matching shapes give the elementwise `&` of the two
    masks; on mismatched shapes the combination is skipped (a warning is logged and
    the pipeline continues normally), modelled as `none` — no error value exists. -/
def combined_interfluves (a b : Grid Nat) : Option (Grid Nat) :=
  if a.height = b.height ∧ a.width = b.width then
    some ⟨a.height, a.width, fun r c => a.data r c &&& b.data r c⟩
  else none

/-- Cellwise view of the combination step's output. -/
def combinedCell (a b : Grid Nat) (r c : Nat) : Option Nat :=
  (combined_interfluves a b).map fun g => g.data r c

/-- Error kind of the Combiner contract. -/
inductive CombineErr where
  | shapeMismatch
deriving DecidableEq

/-- Modelled from the spec: `combine(mask_a, mask_b)` with shapes required to match
    exactly and an `InvalidArgument`/`ShapeMismatch` error otherwise — the strict §4.7
    design behavior, which the source does not implement. -/
def combineSpec (a b : Grid Nat) : Except CombineErr (Grid Nat) :=
  if a.height = b.height ∧ a.width = b.width then
    Except.ok ⟨a.height, a.width, fun r c => a.data r c &&& b.data r c⟩
  else Except.error CombineErr.shapeMismatch

/-- Modelled from the spec: StreamExtractor, `extract(accumulation, threshold)` — output
    1 iff the cell is valid (non-nodata) and `accumulation ≥ threshold`, else 0.  The
    sources delegate this to pysheds `extract_river_network` (strm_analysis.py:128) and
    WhiteboxTools `extract_streams` (strm_analysis_new.py:165), neither of which is
    under src/. -/
def extractStreams (acc : Grid Nat) (valid : Nat → Nat → Bool) (t : Nat) : Grid Nat :=
  ⟨acc.height, acc.width, fun r c =>
    if valid r c = true ∧ t ≤ acc.data r c then 1 else 0⟩

/-! Flow accumulation.  The sources delegate flow accumulation to pysheds
    `grid.accumulation` (strm_analysis.py:99) and WhiteboxTools `d8_flow_accumulation`
    (strm_analysis_new.py:151); neither implementation is under src/, so the
    FlowAccumulator below is modelled from the spec (§4.3). -/

/-- D8 direction codes; `NONE` marks outlets and nodata cells. -/
inductive DirCode where
  | N | NE | E | SE | S | SW | W | NW | NONE
deriving DecidableEq

/-- Row/column offset of a direction code (`none` for `NONE`). -/
def DirCode.offset : DirCode → Option (Int × Int)
  | .N => some (-1, 0)
  | .NE => some (-1, 1)
  | .E => some (0, 1)
  | .SE => some (1, 1)
  | .S => some (1, 0)
  | .SW => some (1, -1)
  | .W => some (0, -1)
  | .NW => some (-1, -1)
  | .NONE => none

/-- Modelled from the spec: a flow-direction grid, `Grid<DirectionCode>` plus the
    validity (non-nodata) mask of the underlying raster. -/
structure DirGrid where
  height : Nat
  width : Nat
  valid : Nat → Nat → Bool
  code : Nat → Nat → DirCode

/-- Number of cells of the flattened (row-major) grid. -/
def DirGrid.size (g : DirGrid) : Nat := g.height * g.width

/-- Row of a flattened cell index. -/
def DirGrid.row (g : DirGrid) (i : Fin g.size) : Nat := (i : Nat) / g.width

/-- Column of a flattened cell index. -/
def DirGrid.col (g : DirGrid) (i : Fin g.size) : Nat := (i : Nat) % g.width

/-- Validity of a flattened cell. -/
def DirGrid.validAt (g : DirGrid) (i : Fin g.size) : Bool := g.valid (g.row i) (g.col i)

/-- The downstream target of a flattened cell: the neighbor its direction code points
    to, `none` for nodata cells, `NONE` codes, and codes pointing off the grid. -/
def DirGrid.next (g : DirGrid) (i : Fin g.size) : Option (Fin g.size) :=
  if g.validAt i then
    match (g.code (g.row i) (g.col i)).offset with
    | none => none
    | some d =>
      let r' : Int := (g.row i : Int) + d.1
      let c' : Int := (g.col i : Int) + d.2
      if hin : 0 ≤ r' ∧ r' < (g.height : Int) ∧ 0 ≤ c' ∧ c' < (g.width : Int) then
        some ⟨r'.toNat * g.width + c'.toNat, by
          obtain ⟨h1, h2, h3, h4⟩ := hin
          have ha : r'.toNat < g.height := by omega
          have hb : c'.toNat < g.width := by omega
          calc r'.toNat * g.width + c'.toNat
              < r'.toNat * g.width + g.width := by omega
            _ = (r'.toNat + 1) * g.width := by ring
            _ ≤ g.height * g.width := Nat.mul_le_mul_right _ (by omega)⟩
      else none
  else none

/-- State of Kahn's algorithm: accumulation values, remaining in-degrees, the queue,
    and the set of finalized cells. -/
structure KState (n : Nat) where
  acc : Fin n → Nat
  indeg : Fin n → Nat
  queue : List (Fin n)
  done : Fin n → Bool

/-- Number of not-yet-finalized cells draining into `c`. -/
def predCount {n : Nat} (next : Fin n → Option (Fin n)) (done : Fin n → Bool)
    (c : Fin n) : Nat :=
  (Finset.univ.filter fun u => next u = some c ∧ done u = false).card

/-- Modelled from the spec: initial Kahn state — accumulation 1 at every valid cell,
    in-degrees of the drainage graph, queue seeded with the valid in-degree-0 cells. -/
def initK (n : Nat) (valid : Fin n → Bool) (next : Fin n → Option (Fin n)) : KState n :=
  { acc := fun c => if valid c then 1 else 0
    indeg := fun c => predCount next (fun _ => false) c
    queue := (List.finRange n).filter fun c =>
      valid c && decide (predCount next (fun _ => false) c = 0)
    done := fun _ => false }

/-- Modelled from the spec: one Kahn step — finalize `u`, add its accumulation to its
    downstream target, decrement the target's remaining in-degree, and enqueue the
    target when it reaches zero. -/
def kstep {n : Nat} (next : Fin n → Option (Fin n)) (s : KState n) (u : Fin n)
    (rest : List (Fin n)) : KState n :=
  match next u with
  | none => { s with queue := rest, done := Function.update s.done u true }
  | some t =>
    { acc := Function.update s.acc t (s.acc t + s.acc u)
      indeg := Function.update s.indeg t (s.indeg t - 1)
      queue := if s.indeg t - 1 = 0 then rest ++ [t] else rest
      done := Function.update s.done u true }

/-- Run Kahn's algorithm for at most `fuel` steps (the queue empties before `n` steps). -/
def krun {n : Nat} (next : Fin n → Option (Fin n)) : Nat → KState n → KState n
  | 0, s => s
  | fuel + 1, s =>
    match s.queue with
    | [] => s
    | u :: rest => krun next fuel (kstep next s u rest)

/-- Modelled from the spec: FlowAccumulator.accumulate over a direction grid, via
    Kahn's algorithm on the flattened drainage graph. -/
def accumulate (g : DirGrid) : Fin g.size → Nat :=
  (krun g.next g.size (initK g.size g.validAt g.next)).acc

/-- Number of drainage steps from a cell to its outlet, within `fuel` steps
    (`none` when the path does not terminate within the fuel — e.g. on a cycle). -/
def drainSteps {n : Nat} (next : Fin n → Option (Fin n)) : Nat → Fin n → Option Nat
  | 0, _ => none
  | fuel + 1, c =>
    match next c with
    | none => some 0
    | some t => (drainSteps next fuel t).map (· + 1)

/-- Number of valid, not-yet-finalized cells: the termination measure of the run. -/
def kmeasure {n : Nat} (valid : Fin n → Bool) (s : KState n) : Nat :=
  (Finset.univ.filter fun c => valid c = true ∧ s.done c = false).card

/-- Invariants of Kahn's algorithm relating the state to the drainage graph. -/
structure KInv (n : Nat) (next : Fin n → Option (Fin n)) (valid : Fin n → Bool)
    (s : KState n) : Prop where
  nodup : s.queue.Nodup
  indeg_eq : ∀ c, s.indeg c = predCount next s.done c
  queue_iff : ∀ c, c ∈ s.queue ↔ (valid c = true ∧ s.done c = false ∧ s.indeg c = 0)
  done_valid : ∀ c, s.done c = true → valid c = true
  done_preds : ∀ c, s.done c = true → ∀ u, next u = some c → s.done u = true
  acc_invalid : ∀ c, valid c = false → s.acc c = 0
  acc_mass :
    (Finset.univ.filter fun c => valid c = true ∧ (s.done c = false ∨ next c = none)).sum
        s.acc
      = (Finset.univ.filter fun c => valid c = true).card

/-- The outlet cells of a direction grid: the cells whose direction code is `NONE`. -/
def DirGrid.outletSet (g : DirGrid) : Finset (Fin g.size) :=
  Finset.univ.filter fun i => g.code (g.row i) (g.col i) = DirCode.NONE

/-- Number of valid (non-nodata) cells of a direction grid. -/
def DirGrid.validCount (g : DirGrid) : Nat :=
  (Finset.univ.filter fun i : Fin g.size => g.validAt i = true).card

/-! Concrete instances used by counterexamples and witnesses. -/

/-- A 2×2 elevation grid with one nodata cell (sentinel `-1`) at `(0,1)`. -/
def exCg : Grid ℚ :=
  ⟨2, 2, fun r c => if r = 0 then (if c = 0 then 0 else -1) else (if c = 0 then 4 else 8)⟩

/-- A perfectly flat 2×2 elevation grid (all valid cells `7`) with one nodata cell. -/
def exFlatNd : Grid ℚ :=
  ⟨2, 2, fun r c => if r = 0 ∧ c = 0 then -1 else 7⟩

/-- A perfectly flat, all-valid 2×2 elevation grid. -/
def exFlat : Grid ℚ := ⟨2, 2, fun _ _ => 7⟩

/-- A 1×1 mask. -/
def exMaskA : Grid Nat := ⟨1, 1, fun _ _ => 1⟩

/-- A 1×2 mask: same height as `exMaskA`, different width. -/
def exMaskB : Grid Nat := ⟨1, 2, fun _ _ => 1⟩

/-- A 2×2 binary stream mask with a single stream cell at `(0,0)`. -/
def exStreamMask : Grid Nat := ⟨2, 2, fun r c => if r = 0 ∧ c = 0 then 1 else 0⟩

/-- A 1×1 stream mask with no stream cell. -/
def exZeroMask : Grid Nat := ⟨1, 1, fun _ _ => 0⟩

/-- A 1×1 accumulation grid. -/
def exAccGrid : Grid Nat := ⟨1, 1, fun _ _ => 5⟩

/-- A 1×1 uint8 stream raster holding the value 7. -/
def exU8 : Grid Nat := ⟨1, 1, fun _ _ => 7⟩

/-- A 1×1 elevation grid whose only cell is the nodata sentinel `-1`. -/
def exElevNd : Grid ℚ := ⟨1, 1, fun _ _ => -1⟩

/-- A 1×1 stream mask whose only cell is a stream cell. -/
def exB8 : Grid Nat := ⟨1, 1, fun _ _ => 1⟩

/-- A 1×1 elevation grid holding the value 5, all valid. -/
def exE8 : Grid ℚ := ⟨1, 1, fun _ _ => 5⟩

/-- A 2×2 direction grid, all valid, draining to the outlet at `(1,1)`. -/
def exDir : DirGrid :=
  ⟨2, 2, fun _ _ => true, fun r c =>
    if r = 0 then (if c = 0 then DirCode.E else DirCode.S)
    else (if c = 0 then DirCode.E else DirCode.NONE)⟩

/-- C1: the source's combination step does not return a ShapeMismatch/InvalidArgument
    error on masks of different shapes; it silently skips the combination (producing no
    combined grid, `none`) and the pipeline continues — while the contract modelled from
    the spec (`combineSpec`) returns the error.  The claim describes the spec's intended
    behavior; the code does not implement it. -/
theorem combine_shape_mismatch_is_skipped :
    combined_interfluves exMaskA exMaskB = none
    ∧ combineSpec exMaskA exMaskB = Except.error CombineErr.shapeMismatch := by
  constructor
  · simp [combined_interfluves, exMaskA, exMaskB]
  · simp [combineSpec, exMaskA, exMaskB]

/-- C6: the stream extractor is monotonic in its threshold — every stream cell at a
    threshold `t2` is a stream cell at every lower threshold `t1`. -/
theorem extractStreams_threshold_monotone (acc : Grid Nat) (valid : Nat → Nat → Bool)
    (t1 t2 r c : Nat) (hle : t1 ≤ t2)
    (h2 : (extractStreams acc valid t2).data r c = 1) :
    (extractStreams acc valid t1).data r c = 1 := by
  dsimp [extractStreams] at h2 ⊢
  split at h2
  · rename_i h
    exact if_pos ⟨h.1, hle.trans h.2⟩
  · simp at h2

/-- Witness for C6 at a concrete grid and thresholds. -/
theorem extractStreams_threshold_monotone_witness :
    2 ≤ 3 ∧ (extractStreams exAccGrid (fun _ _ => true) 2).data 0 0 = 1 :=
  ⟨by decide,
   extractStreams_threshold_monotone exAccGrid (fun _ _ => true) 2 3 0 0 (by decide)
     (by decide)⟩

/-- C9: in the WhiteboxTools variant the distance-transform input is `(1 - v) mod 256`
    of the raw uint8 stream value `v`, so a cell is a stream cell (a zero cell of the
    transform input, hence at distance 0) iff `v = 1`; every cell with `v ≥ 2` yields a
    nonzero input and is treated as non-stream by the distance-based classification. -/
theorem newVariant_streams_are_exactly_value_one (s : Grid Nat) (r c : Nat)
    (hv : s.data r c ≤ 255) :
    (newVariantIsStream s r c = true ↔ s.data r c = 1)
    ∧ (2 ≤ s.data r c → newVariantIsStream s r c = false)
    ∧ (r < s.height → c < s.width →
        ((r, c) ∈ zeroCells (newVariantIsStream s) s.height s.width ↔ s.data r c = 1)) := by
  have key : newVariantIsStream s r c = true ↔ s.data r c = 1 := by
    have : edtInputNew (s.data r c) = 0 ↔ s.data r c = 1 := by
      unfold edtInputNew
      omega
    simpa [newVariantIsStream] using this
  refine ⟨key, ?_, ?_⟩
  · intro h2
    rcases Bool.eq_false_or_eq_true (newVariantIsStream s r c) with h | h
    · exact absurd (key.mp h) (by omega)
    · exact h
  · intro hr hc
    rw [zeroCells, List.mem_filter, List.pair_mem_product]
    simp [List.mem_range, hr, hc, key]

/-- Witness for C9 at a concrete raster holding the value 7. -/
theorem newVariant_streams_are_exactly_value_one_witness :
    exU8.data 0 0 ≤ 255 ∧ newVariantIsStream exU8 0 0 = false :=
  ⟨by decide,
   (newVariant_streams_are_exactly_value_one exU8 0 0 (by decide)).2.1 (by decide)⟩

/-- C10: at every cell whose input elevation equals the nodata sentinel, the TPI is NaN
    (`none`), and the mask construction maps every NaN TPI cell to 0 — so the relief
    mask holds 0 (never 1) at nodata cells, indistinguishable from a valid
    non-interfluve cell. -/
theorem tpi_and_mask_at_nodata (g : Grid ℚ) (nd : ℚ) (k : Nat) (thr : ℚ) (r c : Nat) :
    (g.data r c = nd → tpi g nd k r c = none)
    ∧ (tpi g nd k r c = none → (interfluves_by_tpi g nd k thr).data r c = 0) := by
  constructor
  · intro h
    simp [tpi, h]
  · intro h
    simp [interfluves_by_tpi, h]

/-- Witness for C10 at a concrete all-nodata 1×1 grid. -/
theorem tpi_and_mask_at_nodata_witness :
    tpi exElevNd (-1) 9 0 0 = none
    ∧ (interfluves_by_tpi exElevNd (-1) 9 (1/2)).data 0 0 = 0 :=
  ⟨(tpi_and_mask_at_nodata exElevNd (-1) 9 (1/2) 0 0).1 rfl,
   (tpi_and_mask_at_nodata exElevNd (-1) 9 (1/2) 0 0).2
     ((tpi_and_mask_at_nodata exElevNd (-1) 9 (1/2) 0 0).1 rfl)⟩

/-- Summing the nodata-substituted values over any list of cells splits into the sum of
    the valid raw values plus the nodata-cell count times the substituted global mean. -/
theorem sum_map_demNoNodata (g : Grid ℚ) (nd : ℚ) (l : List (Nat × Nat)) :
    (l.map fun q => demNoNodata g nd q.1 q.2).sum
      = ((l.filter fun q => decide (g.data q.1 q.2 ≠ nd)).map fun q => g.data q.1 q.2).sum
        + ((l.countP fun q => decide (g.data q.1 q.2 = nd)) : ℚ) * demMean g nd := by
  induction l with
  | nil => simp
  | cons q l ih =>
    rw [List.map_cons, List.sum_cons, List.filter_cons, List.countP_cons, ih]
    by_cases h : g.data q.1 q.2 = nd
    · rw [demNoNodata, if_pos h, if_neg (by simp [h]), if_pos (by simp [h])]
      push_cast
      ring
    · rw [demNoNodata, if_neg h, if_pos (by simp [h]), if_neg (by simp [h]),
        List.map_cons, List.sum_cons]
      ring_nf

/-- A mapped list with constant value `v` sums to its length times `v`. -/
theorem list_map_sum_const {α : Type} (l : List α) (f : α → ℚ) (v : ℚ)
    (h : ∀ x ∈ l, f x = v) : (l.map f).sum = (l.length : ℚ) * v := by
  induction l with
  | nil => simp
  | cons x l ih =>
    have hx := h x (List.mem_cons_self x l)
    have hl := ih fun y hy => h y (List.mem_cons_of_mem x hy)
    simp [hx, hl]
    ring

/-- The window of a `k × k` kernel has `k * k` cells (with multiplicity). -/
theorem windowCells_length (g : Grid ℚ) (k r c : Nat) :
    (windowCells g k r c).length = k * k := by
  rw [windowCells, List.length_map]
  have h := List.length_product (List.range k) (List.range k)
  simp only [List.length_range] at h
  exact h

/-- Reflect-padding indices stay in bounds for pad width `p < m`. -/
theorem reflectIdx_lt (m : Nat) (i : Int) (p : Nat) (hp : p < m) (hlow : -(p : Int) ≤ i)
    (hhigh : i ≤ (m : Int) - 1 + (p : Int)) : reflectIdx m i < m := by
  unfold reflectIdx
  split
  · omega
  · split <;> omega

/-- Window cells are in bounds when the pad width fits in the grid. -/
theorem windowCells_in_bounds (g : Grid ℚ) (k r c : Nat) (hkh : k / 2 < g.height)
    (hkw : k / 2 < g.width) (hr : r < g.height) (hc : c < g.width) :
    ∀ q ∈ windowCells g k r c, q.1 < g.height ∧ q.2 < g.width := by
  intro q hq
  rw [windowCells, List.mem_map] at hq
  obtain ⟨d, hd, rfl⟩ := hq
  rw [List.pair_mem_product] at hd
  have h1 : d.1 < k := List.mem_range.mp hd.1
  have h2 : d.2 < k := List.mem_range.mp hd.2
  constructor
  · exact reflectIdx_lt _ _ (k / 2) hkh (by omega) (by omega)
  · exact reflectIdx_lt _ _ (k / 2) hkw (by omega) (by omega)

/-- The kernel center reflects to the cell itself. -/
theorem windowCells_center_mem (g : Grid ℚ) (k r c : Nat) (hk : k ≠ 0)
    (hr : r < g.height) (hc : c < g.width) : (r, c) ∈ windowCells g k r c := by
  rw [windowCells, List.mem_map]
  refine ⟨(k / 2, k / 2), ?_, ?_⟩
  · rw [List.pair_mem_product]
    have : k / 2 < k := Nat.div_lt_self (Nat.pos_of_ne_zero hk) one_lt_two
    exact ⟨List.mem_range.mpr this, List.mem_range.mpr this⟩
  · have hsimp : ∀ m j : Nat, j < m → reflectIdx m ((j : Int) + (k / 2 : Nat) - (k / 2 : Nat)) = j := by
      intro m j hj
      unfold reflectIdx
      split
      · omega
      · split <;> omega
    simp only
    rw [hsimp g.height r hr, hsimp g.width c hc]

/-- On a flat grid (all valid cells equal to `v`) with at least one valid cell, the
    substituted global mean is `v`. -/
theorem demMean_flat (g : Grid ℚ) (nd v : ℚ)
    (hflat : ∀ r' < g.height, ∀ c' < g.width, g.data r' c' ≠ nd → g.data r' c' = v)
    (r c : Nat) (hr : r < g.height) (hc : c < g.width) (hv : g.data r c ≠ nd) :
    demMean g nd = v := by
  have hmem : (r, c) ∈ validCells g nd := by
    rw [validCells, List.mem_filter, List.pair_mem_product]
    exact ⟨⟨List.mem_range.mpr hr, List.mem_range.mpr hc⟩, by simpa using hv⟩
  have hne : (validCells g nd).length ≠ 0 := by
    intro h0
    rw [List.length_eq_zero] at h0
    rw [h0] at hmem
    exact (List.not_mem_nil _ hmem)
  have hval : ∀ q ∈ validCells g nd, g.data q.1 q.2 = v := by
    intro q hq
    rw [validCells, List.mem_filter] at hq
    have hb := List.pair_mem_product.mp (by exact_mod_cast hq.1)
    exact hflat q.1 (List.mem_range.mp hb.1) q.2 (List.mem_range.mp hb.2)
      (by simpa using hq.2)
  rw [demMean]
  simp only [if_neg hne]
  rw [list_map_sum_const _ _ v hval]
  exact mul_div_cancel_left₀ v (Nat.cast_ne_zero.mpr hne)

/-- C3 counterexample: on `exCg` (nodata sentinel `-1` at cell (0,1)), the source's
    local mean at cell (0,0) with a 3×3 window is 16/3, while the mean of the same
    neighborhood over non-nodata cells only is 40/7 — so the code's local mean is not
    the nodata-excluding mean the claim describes. -/
theorem localMean_not_nodata_excluding_cex :
    localMean exCg (-1) 3 0 0 = 16/3
    ∧ localMeanSpec exCg (-1) 3 0 0 = some (40/7)
    ∧ (16/3 : ℚ) ≠ 40/7 := by
  have h1 : windowCells exCg 3 0 0 = [(1,1),(1,0),(1,1),(0,1),(0,0),(0,1),(1,1),(1,0),(1,1)] := by
    decide
  have h2 : validCells exCg (-1) = [(0,0),(1,0),(1,1)] := by decide
  have d00 : exCg.data 0 0 = 0 := rfl
  have d01 : exCg.data 0 1 = -1 := rfl
  have d10 : exCg.data 1 0 = 4 := rfl
  have d11 : exCg.data 1 1 = 8 := rfl
  have h3 : demMean exCg (-1) = 4 := by
    simp only [demMean, h2]
    norm_num [d00, d10, d11]
  refine ⟨?_, ?_, by norm_num⟩
  · simp only [localMean, h1, List.map_cons, List.map_nil, demNoNodata, d00, d01, d10, d11, h3]
    norm_num
  · have h4 : (windowCells exCg 3 0 0).filter (fun q => decide (exCg.data q.1 q.2 ≠ -1))
        = [(1,1),(1,0),(1,1),(0,0),(1,1),(1,0),(1,1)] := by decide
    simp only [localMeanSpec, h4]
    norm_num [d00, d10, d11]

/-- C3 corrected: the source's local mean does not exclude nodata cells from the
    windowed mean — it substitutes every nodata cell by the global mean of all valid
    cells (`demMean`) and averages over all `k·k` window positions; and the output TPI
    and mask are nodata (`none` / 0) exactly at cells whose own elevation is nodata —
    in particular at every cell whose entire neighborhood is nodata, since the
    neighborhood always contains the cell itself. -/
theorem localMean_substitutes_nodata (g : Grid ℚ) (nd : ℚ) (k : Nat) (thr : ℚ)
    (r c : Nat) :
    localMean g nd k r c
      = ((((windowCells g k r c).filter fun q => decide (g.data q.1 q.2 ≠ nd)).map
            fun q => g.data q.1 q.2).sum
          + (((windowCells g k r c).countP fun q => decide (g.data q.1 q.2 = nd)) : ℚ)
              * demMean g nd) / ((k : ℚ) * (k : ℚ))
    ∧ ((∀ q ∈ windowCells g k r c, g.data q.1 q.2 = nd) → k ≠ 0 → r < g.height →
        c < g.width →
        tpi g nd k r c = none ∧ (interfluves_by_tpi g nd k thr).data r c = 0) := by
  constructor
  · rw [localMean, sum_map_demNoNodata]
  · intro hall hk hr hc
    have hcenter : g.data r c = nd := hall (r, c) (windowCells_center_mem g k r c hk hr hc)
    have h1 : tpi g nd k r c = none := by simp [tpi, hcenter]
    exact ⟨h1, by simp [interfluves_by_tpi, h1]⟩

/-- Witness for the corrected C3 at a concrete all-nodata 1×1 grid with a 1×1 window. -/
theorem localMean_substitutes_nodata_witness :
    (∀ q ∈ windowCells exElevNd 1 0 0, exElevNd.data q.1 q.2 = (-1 : ℚ))
    ∧ tpi exElevNd (-1) 1 0 0 = none
    ∧ (interfluves_by_tpi exElevNd (-1) 1 (1/2)).data 0 0 = 0 := by
  have hall : ∀ q ∈ windowCells exElevNd 1 0 0, exElevNd.data q.1 q.2 = (-1 : ℚ) := by
    decide
  obtain ⟨h1, h2⟩ := (localMean_substitutes_nodata exElevNd (-1) 1 (1/2) 0 0).2 hall
    (by decide) (by decide) (by decide)
  exact ⟨hall, h1, h2⟩

/-- C7 counterexample: `exFlatNd` is perfectly flat (all its valid cells equal 7) but
    holds a nodata cell at (0,0); there the output TPI is NaN (`none`), not 0, so the
    TPI grid is not 0 everywhere. -/
theorem tpi_flat_nodata_cex :
    (∀ r' < exFlatNd.height, ∀ c' < exFlatNd.width, exFlatNd.data r' c' ≠ -1 →
      exFlatNd.data r' c' = 7)
    ∧ tpi exFlatNd (-1) 3 0 0 = none
    ∧ (none : Option ℚ) ≠ some 0 := by
  refine ⟨by decide, ?_, by simp⟩
  have h : exFlatNd.data 0 0 = -1 := rfl
  simp [tpi, h]

/-- C7 corrected: on a perfectly flat elevation grid (every valid cell equal to `v`,
    window fitting the grid), the TPI is 0 at every valid cell — while at nodata cells
    it is NaN (`none`), not 0 — and the interfluve mask is 0 at every cell, for every
    positive threshold. -/
theorem tpi_flat_grid (g : Grid ℚ) (nd v : ℚ) (k : Nat) (thr : ℚ)
    (hthr : 0 < thr) (hk : k ≠ 0) (hkh : k / 2 < g.height) (hkw : k / 2 < g.width)
    (hflat : ∀ r' < g.height, ∀ c' < g.width, g.data r' c' ≠ nd →
      g.data r' c' = v)
    (r c : Nat) (hr : r < g.height) (hc : c < g.width) :
    (g.data r c ≠ nd → tpi g nd k r c = some 0)
    ∧ (interfluves_by_tpi g nd k thr).data r c = 0 := by
  have hmain : g.data r c ≠ nd → tpi g nd k r c = some 0 := by
    intro hv
    have hmean : demMean g nd = v := demMean_flat g nd v hflat r c hr hc hv
    have hwin : ∀ q ∈ windowCells g k r c, demNoNodata g nd q.1 q.2 = v := by
      intro q hq
      obtain ⟨hq1, hq2⟩ := windowCells_in_bounds g k r c hkh hkw hr hc q hq
      by_cases h : g.data q.1 q.2 = nd
      · simp [demNoNodata, h, hmean]
      · rw [demNoNodata, if_neg h, hflat q.1 hq1 q.2 hq2 h]
    have hsum : ((windowCells g k r c).map fun q => demNoNodata g nd q.1 q.2).sum
        = ((k * k : Nat) : ℚ) * v := by
      rw [list_map_sum_const _ _ v hwin, windowCells_length]
    have hlm : localMean g nd k r c = v := by
      rw [localMean, hsum]
      have hkk : ((k : ℚ) * (k : ℚ)) ≠ 0 :=
        mul_ne_zero (Nat.cast_ne_zero.mpr hk) (Nat.cast_ne_zero.mpr hk)
      push_cast
      exact mul_div_cancel_left₀ v hkk
    rw [tpi, if_neg hv, hflat r hr c hc hv, hlm]
    simp
  refine ⟨hmain, ?_⟩
  by_cases hv : g.data r c = nd
  · simp [interfluves_by_tpi, tpi, hv]
  · simp only [interfluves_by_tpi, hmain hv]
    rw [if_neg (by linarith)]

/-- Witness for the corrected C7 at a concrete flat all-valid 2×2 grid. -/
theorem tpi_flat_grid_witness :
    tpi exFlat (-1) 3 0 0 = some 0
    ∧ (interfluves_by_tpi exFlat (-1) 3 (1/2)).data 0 0 = 0 := by
  have h := tpi_flat_grid exFlat (-1) 7 3 (1/2) (by norm_num) (by decide) (by decide)
    (by decide) (by decide) 0 0 (by decide) (by decide)
  exact ⟨h.1 (by decide), h.2⟩

/-- Membership in the zero-cell list. -/
theorem mem_zeroCells (isZero : Nat → Nat → Bool) (h w : Nat) (q : Nat × Nat) :
    q ∈ zeroCells isZero h w ↔ q.1 < h ∧ q.2 < w ∧ isZero q.1 q.2 = true := by
  rw [zeroCells, List.mem_filter]
  constructor
  · rintro ⟨hm, hz⟩
    have hp := List.pair_mem_product.mp hm
    exact ⟨List.mem_range.mp hp.1, List.mem_range.mp hp.2, hz⟩
  · rintro ⟨h1, h2, h3⟩
    exact ⟨List.pair_mem_product.mpr ⟨List.mem_range.mpr h1, List.mem_range.mpr h2⟩, h3⟩

/-- The squared cell distance, written with `natAbs` offsets. -/
theorem sqCellDist_eq (r c r' c' : Nat) :
    sqCellDist r c r' c'
      = ((r : Int) - (r' : Int)).natAbs ^ 2 + ((c : Int) - (c' : Int)).natAbs ^ 2 := by
  rw [sqCellDist]
  have hcast : ((r : Int) - (r' : Int)) ^ 2 + ((c : Int) - (c' : Int)) ^ 2
      = ((((r : Int) - (r' : Int)).natAbs ^ 2 + ((c : Int) - (c' : Int)).natAbs ^ 2 : ℕ) : ℤ) := by
    push_cast
    rw [sq_abs, sq_abs]
  rw [hcast, Int.toNat_natCast]

/-- Membership in the first-pass offset list of a column. -/
theorem mem_colPass_list (isZero : Nat → Nat → Bool) (h r c' : Nat) (y : Nat) :
    (y ∈ ((List.range h).filter fun r' => isZero r' c').map fun (r' : Nat) =>
        ((r : Int) - (r' : Int)).natAbs)
      ↔ ∃ r' : Nat, r' < h ∧ isZero r' c' = true ∧ y = ((r : Int) - (r' : Int)).natAbs := by
  rw [List.mem_map]
  constructor
  · rintro ⟨r', hr', rfl⟩
    rw [List.mem_filter] at hr'
    exact ⟨r', List.mem_range.mp hr'.1, hr'.2, rfl⟩
  · rintro ⟨r', h1, h2, rfl⟩
    exact ⟨r', List.mem_filter.mpr ⟨List.mem_range.mpr h1, h2⟩, rfl⟩

/-- The two-pass separable squared distance transform computes exactly the minimal
    squared Euclidean distance to a zero cell. -/
theorem twoPass_eq_brute (isZero : Nat → Nat → Bool) (h w r c : Nat) :
    twoPassSqDist isZero h w r c = bruteSqDist isZero h w r c := by
  rcases hb : bruteSqDist isZero h w r c with _ | d
  · simp only [bruteSqDist] at hb
    rw [List.min?_eq_none_iff, List.map_eq_nil_iff] at hb
    simp only [twoPassSqDist]
    rw [List.min?_eq_none_iff, List.filterMap_eq_nil_iff]
    intro c' hc'
    rcases hcp : colPass isZero h r c' with _ | g
    · rfl
    · exfalso
      have hcp' := hcp
      simp only [colPass] at hcp'
      rw [List.min?_eq_some_iff'] at hcp'
      obtain ⟨r', hr', hz', _⟩ := (mem_colPass_list isZero h r c' g).mp hcp'.1
      have hmem : (r', c') ∈ zeroCells isZero h w :=
        (mem_zeroCells isZero h w (r', c')).mpr ⟨hr', List.mem_range.mp hc', hz'⟩
      rw [hb] at hmem
      exact List.not_mem_nil _ hmem
  · simp only [bruteSqDist] at hb
    rw [List.min?_eq_some_iff'] at hb
    obtain ⟨hmem, hlb⟩ := hb
    rw [List.mem_map] at hmem
    obtain ⟨qs, hqs, hqd⟩ := hmem
    obtain ⟨hq1, hq2, hq3⟩ := (mem_zeroCells isZero h w qs).mp hqs
    have hlb' : ∀ p ∈ zeroCells isZero h w, d ≤ sqCellDist r c p.1 p.2 := fun p hp =>
      hlb _ (List.mem_map.mpr ⟨p, hp, rfl⟩)
    have hcol_mem : ((r : Int) - (qs.1 : Int)).natAbs
        ∈ ((List.range h).filter fun r' => isZero r' qs.2).map fun (r' : Nat) =>
            ((r : Int) - (r' : Int)).natAbs :=
      (mem_colPass_list isZero h r qs.2 _).mpr ⟨qs.1, hq1, hq3, rfl⟩
    rcases hcp : colPass isZero h r qs.2 with _ | g
    · exfalso
      have hcp' := hcp
      simp only [colPass] at hcp'
      rw [List.min?_eq_none_iff] at hcp'
      rw [hcp'] at hcol_mem
      exact List.not_mem_nil _ hcol_mem
    · have hcp' := hcp
      simp only [colPass] at hcp'
      rw [List.min?_eq_some_iff'] at hcp'
      obtain ⟨hgmem, hglb⟩ := hcp'
      obtain ⟨r₂, hr₂, hz₂, hgy⟩ := (mem_colPass_list isZero h r qs.2 g).mp hgmem
      have hxle : g ^ 2 + ((c : Int) - (qs.2 : Int)).natAbs ^ 2 ≤ d := by
        have hgle : g ≤ ((r : Int) - (qs.1 : Int)).natAbs := hglb _ hcol_mem
        calc g ^ 2 + ((c : Int) - (qs.2 : Int)).natAbs ^ 2
            ≤ ((r : Int) - (qs.1 : Int)).natAbs ^ 2 + ((c : Int) - (qs.2 : Int)).natAbs ^ 2 :=
              Nat.add_le_add_right (Nat.pow_le_pow_left hgle 2) _
          _ = sqCellDist r c qs.1 qs.2 := (sqCellDist_eq r c qs.1 qs.2).symm
          _ = d := hqd
      have hxge : d ≤ g ^ 2 + ((c : Int) - (qs.2 : Int)).natAbs ^ 2 := by
        have heq : g ^ 2 + ((c : Int) - (qs.2 : Int)).natAbs ^ 2 = sqCellDist r c r₂ qs.2 := by
          rw [sqCellDist_eq, hgy]
        rw [heq]
        exact hlb' (r₂, qs.2) ((mem_zeroCells isZero h w (r₂, qs.2)).mpr ⟨hr₂, hq2, hz₂⟩)
      have hxd : g ^ 2 + ((c : Int) - (qs.2 : Int)).natAbs ^ 2 = d := le_antisymm hxle hxge
      simp only [twoPassSqDist]
      rw [List.min?_eq_some_iff']
      constructor
      · rw [List.mem_filterMap]
        refine ⟨qs.2, List.mem_range.mpr hq2, ?_⟩
        rw [hcp]
        simp [hxd]
      · intro x hx
        rw [List.mem_filterMap] at hx
        obtain ⟨c', hc', hf⟩ := hx
        rcases hcp2 : colPass isZero h r c' with _ | g2
        · rw [hcp2] at hf
          simp at hf
        · rw [hcp2] at hf
          have hx' : x = g2 ^ 2 + ((c : Int) - (c' : Int)).natAbs ^ 2 := by
            simpa using hf.symm
          have hcp2' := hcp2
          simp only [colPass] at hcp2'
          rw [List.min?_eq_some_iff'] at hcp2'
          obtain ⟨r₁, hr₁, hz₁, hgy₁⟩ := (mem_colPass_list isZero h r c' g2).mp hcp2'.1
          have hxq : x = sqCellDist r c r₁ c' := by
            rw [sqCellDist_eq, hx', hgy₁]
          rw [hxq]
          exact hlb' (r₁, c')
            ((mem_zeroCells isZero h w (r₁, c')).mpr ⟨hr₁, List.mem_range.mp hc', hz₁⟩)

/-- C4: with at least one stream cell in the binary mask, the distance-variant
    classifier outputs 1 at exactly those cells whose Euclidean distance to the nearest
    stream cell (value 1) is strictly greater than the threshold — i.e. the threshold
    is negative or every stream cell lies at squared distance greater than the squared
    threshold — and 0 at every other cell. -/
theorem interfluves_by_distance_exact (b : Grid Nat) (t : ℚ)
    (hstream : ∃ r0 c0, r0 < b.height ∧ c0 < b.width ∧ b.data r0 c0 = 1) (r c : Nat) :
    (interfluves_by_distance b t).data r c
      = if t < 0 ∨ ∀ r' < b.height, ∀ c' < b.width, b.data r' c' = 1 →
            t ^ 2 < (sqCellDist r c r' c' : ℚ) then 1 else 0 := by
  obtain ⟨r0, c0, hr0, hc0, hb0⟩ := hstream
  have hmem0 : (r0, c0) ∈ zeroCells (fun r' c' => b.data r' c' == 1) b.height b.width :=
    (mem_zeroCells _ _ _ (r0, c0)).mpr ⟨hr0, hc0, by simpa using hb0⟩
  rcases hbr : bruteSqDist (fun r' c' => b.data r' c' == 1) b.height b.width r c with _ | d
  · exfalso
    simp only [bruteSqDist] at hbr
    rw [List.min?_eq_none_iff, List.map_eq_nil_iff] at hbr
    rw [hbr] at hmem0
    exact List.not_mem_nil _ hmem0
  · have hbr' := hbr
    simp only [bruteSqDist] at hbr'
    rw [List.min?_eq_some_iff'] at hbr'
    obtain ⟨hdmem, hdlb⟩ := hbr'
    rw [List.mem_map] at hdmem
    obtain ⟨qs, hqs, hqd⟩ := hdmem
    have hiff :
        (distGT (twoPassSqDist (fun r' c' => b.data r' c' == 1) b.height b.width r c) t
          = true)
        ↔ (t < 0 ∨ ∀ r' < b.height, ∀ c' < b.width, b.data r' c' = 1 →
            t ^ 2 < (sqCellDist r c r' c' : ℚ)) := by
      rw [twoPass_eq_brute, hbr]
      simp only [distGT, Bool.or_eq_true, decide_eq_true_eq]
      constructor
      · rintro (h | h)
        · exact Or.inl h
        · refine Or.inr fun r' hr' c' hc' h1 => ?_
          have hle : d ≤ sqCellDist r c r' c' :=
            hdlb _ (List.mem_map.mpr ⟨(r', c'),
              (mem_zeroCells _ _ _ (r', c')).mpr ⟨hr', hc', by simpa using h1⟩, rfl⟩)
          calc t ^ 2 < (d : ℚ) := h
            _ ≤ (sqCellDist r c r' c' : ℚ) := by exact_mod_cast hle
      · rintro (h | h)
        · exact Or.inl h
        · refine Or.inr ?_
          obtain ⟨hq1, hq2, hq3⟩ := (mem_zeroCells _ _ _ qs).mp hqs
          have hx := h qs.1 hq1 qs.2 hq2 (by simpa using hq3)
          rw [hqd] at hx
          exact hx
    show (if distGT (twoPassSqDist (fun r' c' => b.data r' c' == 1) b.height b.width r c) t
        then 1 else 0) = _
    by_cases hd :
        distGT (twoPassSqDist (fun r' c' => b.data r' c' == 1) b.height b.width r c) t = true
    · rw [if_pos hd, if_pos (hiff.mp hd)]
    · rw [if_neg hd, if_neg fun hp => hd (hiff.mpr hp)]

/-- Witness for C4 at a concrete 2×2 mask with one stream cell. -/
theorem interfluves_by_distance_exact_witness :
    (∃ r0 c0, r0 < exStreamMask.height ∧ c0 < exStreamMask.width
      ∧ exStreamMask.data r0 c0 = 1)
    ∧ (interfluves_by_distance exStreamMask 15).data 1 1
      = if (15 : ℚ) < 0 ∨ ∀ r' < exStreamMask.height, ∀ c' < exStreamMask.width,
          exStreamMask.data r' c' = 1 → (15 : ℚ) ^ 2 < (sqCellDist 1 1 r' c' : ℚ)
        then 1 else 0 :=
  ⟨⟨0, 0, by decide, by decide, by decide⟩,
   interfluves_by_distance_exact exStreamMask 15 ⟨0, 0, by decide, by decide, by decide⟩ 1 1⟩

/-- C5: on a mask with zero stream cells the distance-variant classifier still succeeds
    and returns the all-ones mask (degenerate case modelled from the spec, see
    `distGT`). -/
theorem distance_all_ones_when_no_streams (b : Grid Nat) (t : ℚ)
    (hz : ∀ r' < b.height, ∀ c' < b.width, b.data r' c' ≠ 1) (r c : Nat) :
    (interfluves_by_distance b t).data r c = 1 := by
  have hempty : zeroCells (fun r' c' => b.data r' c' == 1) b.height b.width = [] := by
    rw [List.eq_nil_iff_forall_not_mem]
    intro q hq
    obtain ⟨h1, h2, h3⟩ := (mem_zeroCells _ _ _ q).mp hq
    exact hz q.1 h1 q.2 h2 (by simpa using h3)
  have hbr : bruteSqDist (fun r' c' => b.data r' c' == 1) b.height b.width r c = none := by
    simp only [bruteSqDist, hempty]
    rfl
  show (if distGT (twoPassSqDist (fun r' c' => b.data r' c' == 1) b.height b.width r c) t
      then 1 else 0) = 1
  rw [twoPass_eq_brute, hbr]
  rfl

/-- Witness for C5 at a concrete all-zero 1×1 mask. -/
theorem distance_all_ones_when_no_streams_witness :
    (∀ r' < exZeroMask.height, ∀ c' < exZeroMask.width, exZeroMask.data r' c' ≠ 1)
    ∧ (interfluves_by_distance exZeroMask 15).data 0 0 = 1 :=
  ⟨by decide, distance_all_ones_when_no_streams exZeroMask 15 (by decide) 0 0⟩

/-- C8: every mask the pipeline produces — the binary stream mask, the
    distance-interfluve mask, the relief-interfluve mask and their combination — holds
    only the values 0 and 1 at every cell. -/
theorem masks_binary (s b : Grid Nat) (e : Grid ℚ) (nd : ℚ) (k : Nat) (thr t : ℚ)
    (r c : Nat) (v : Nat) :
    ((binary_streams s).data r c = 0 ∨ (binary_streams s).data r c = 1)
    ∧ ((interfluves_by_distance b t).data r c = 0
        ∨ (interfluves_by_distance b t).data r c = 1)
    ∧ ((interfluves_by_tpi e nd k thr).data r c = 0
        ∨ (interfluves_by_tpi e nd k thr).data r c = 1)
    ∧ (combinedCell (interfluves_by_distance b t) (interfluves_by_tpi e nd k thr) r c
          = some v → v = 0 ∨ v = 1) := by
  have h1 : (binary_streams s).data r c = 0 ∨ (binary_streams s).data r c = 1 := by
    show (if 0 < s.data r c then 1 else 0) = 0 ∨ (if 0 < s.data r c then 1 else 0) = 1
    split
    · exact Or.inr rfl
    · exact Or.inl rfl
  have h2 : (interfluves_by_distance b t).data r c = 0
      ∨ (interfluves_by_distance b t).data r c = 1 := by
    show (if distGT _ t then 1 else 0) = 0 ∨ (if distGT _ t then 1 else 0) = 1
    split
    · exact Or.inr rfl
    · exact Or.inl rfl
  have h3 : (interfluves_by_tpi e nd k thr).data r c = 0
      ∨ (interfluves_by_tpi e nd k thr).data r c = 1 := by
    have hshow : (interfluves_by_tpi e nd k thr).data r c
        = match tpi e nd k r c with
          | none => 0
          | some x => if thr < x then 1 else 0 := rfl
    rw [hshow]
    rcases tpi e nd k r c with _ | x
    · exact Or.inl rfl
    · by_cases hx : thr < x
      · exact Or.inr (if_pos hx)
      · exact Or.inl (if_neg hx)
  refine ⟨h1, h2, h3, ?_⟩
  intro hcomb
  simp only [combinedCell, combined_interfluves] at hcomb
  split at hcomb
  · simp only [Option.map_some'] at hcomb
    have hv : v = (interfluves_by_distance b t).data r c
        &&& (interfluves_by_tpi e nd k thr).data r c := (Option.some.inj hcomb).symm
    rcases h2 with hx | hx <;> rcases h3 with hy | hy <;> rw [hx, hy] at hv
    · exact Or.inl (by simpa using hv)
    · exact Or.inl (by simpa using hv)
    · exact Or.inl (by simpa using hv)
    · exact Or.inr (by simpa using hv)
  · simp at hcomb

/-- Witness for C8: the combined mask evaluated at a concrete pair of 1×1 inputs. -/
theorem masks_binary_witness :
    combinedCell (interfluves_by_distance exB8 15) (interfluves_by_tpi exE8 (-1) 1 (1/2)) 0 0
      = some 0
    ∧ ((0 : Nat) = 0 ∨ (0 : Nat) = 1) := by
  have hdist : (interfluves_by_distance exB8 15).data 0 0 = 0 := by
    have htp : twoPassSqDist (fun r' c' => exB8.data r' c' == 1) exB8.height exB8.width 0 0
        = some 0 := by decide
    show (if distGT (twoPassSqDist (fun r' c' => exB8.data r' c' == 1)
        exB8.height exB8.width 0 0) 15 then 1 else 0) = 0
    rw [htp]
    norm_num [distGT]
  have htpi : (interfluves_by_tpi exE8 (-1) 1 (1/2)).data 0 0 = 0 := by
    have hval : validCells exE8 (-1) = [(0, 0)] := by decide
    have hwin : windowCells exE8 1 0 0 = [(0, 0)] := by decide
    have hd : exE8.data 0 0 = 5 := rfl
    have hdm : demMean exE8 (-1) = 5 := by
      simp only [demMean, hval]
      norm_num [hd]
    have hlm : localMean exE8 (-1) 1 0 0 = 5 := by
      simp only [localMean, hwin, List.map_cons, List.map_nil, demNoNodata, hd]
      norm_num [hdm]
    have htv : tpi exE8 (-1) 1 0 0 = some 0 := by
      rw [tpi, if_neg (by norm_num [hd]), hd, hlm]
      norm_num
    have hshow : (interfluves_by_tpi exE8 (-1) 1 (1/2)).data 0 0
        = match tpi exE8 (-1) 1 0 0 with
          | none => 0
          | some x => if (1/2 : ℚ) < x then 1 else 0 := rfl
    rw [hshow, htv]
    norm_num
  have hpre : combinedCell (interfluves_by_distance exB8 15)
      (interfluves_by_tpi exE8 (-1) 1 (1/2)) 0 0 = some 0 := by
    simp only [combinedCell, combined_interfluves]
    rw [if_pos ⟨rfl, rfl⟩]
    simp only [Option.map_some']
    rw [hdist, htpi]
    simp
  exact ⟨hpre, (masks_binary exB8 exB8 exE8 (-1) 1 (1/2) 15 0 0 0).2.2.2 hpre⟩

/-- Fuel monotonicity of `drainSteps`. -/
theorem drainSteps_mono {n : Nat} (next : Fin n → Option (Fin n)) :
    ∀ (f : Nat) (cl : Fin n) (k : Nat), drainSteps next f cl = some k →
      ∀ f', f ≤ f' → drainSteps next f' cl = some k := by
  intro f
  induction f with
  | zero =>
    intro cl k hk
    simp [drainSteps] at hk
  | succ f ih =>
    intro cl k hk f' hf'
    obtain ⟨f'', rfl⟩ : ∃ f'', f' = f'' + 1 := ⟨f' - 1, by omega⟩
    rcases hnext : next cl with _ | t
    · simp only [drainSteps, hnext] at hk ⊢
      exact hk
    · simp only [drainSteps, hnext] at hk ⊢
      obtain ⟨j, hj, hjk⟩ := Option.map_eq_some'.mp hk
      rw [ih t j hj f'' (by omega)]
      simp [hjk]

/-- On terminating drainage graphs, the remaining step count strictly decreases along
    every drainage edge: it is a rank function witnessing acyclicity. -/
theorem drainSteps_rank_lt {n : Nat} (next : Fin n → Option (Fin n))
    (hterm : ∀ cl : Fin n, (drainSteps next n cl).isSome) (u t : Fin n)
    (hut : next u = some t) :
    (drainSteps next n t).getD 0 < (drainSteps next n u).getD 0 := by
  obtain ⟨m, rfl⟩ : ∃ m, n = m + 1 := ⟨n - 1, by have := u.pos; omega⟩
  obtain ⟨k, hk⟩ := Option.isSome_iff_exists.mp (hterm u)
  have hk' := hk
  simp only [drainSteps, hut] at hk'
  obtain ⟨j, hj, hjk⟩ := Option.map_eq_some'.mp hk'
  have hjt : drainSteps next (m + 1) t = some j := drainSteps_mono next m t j hj (m + 1) (by omega)
  rw [hk, hjt]
  simp only [Option.getD_some]
  omega

/-- The invariants hold in the initial Kahn state. -/
theorem kinv_init {n : Nat} (next : Fin n → Option (Fin n)) (valid : Fin n → Bool) :
    KInv n next valid (initK n valid next) := by
  constructor
  · exact (List.nodup_finRange n).filter _
  · intro c
    rfl
  · intro c
    simp only [initK, List.mem_filter, List.mem_finRange, true_and, Bool.and_eq_true,
      decide_eq_true_eq]
  · intro c hc
    simp [initK] at hc
  · intro c hc
    simp [initK] at hc
  · intro c hc
    simp only [initK]
    rw [if_neg]
    simp [hc]
  · have hset : (Finset.univ.filter fun c : Fin n =>
        valid c = true ∧ ((initK n valid next).done c = false ∨ next c = none))
        = Finset.univ.filter fun c => valid c = true :=
      Finset.filter_congr fun x _ => by simp [initK]
    rw [hset, Finset.card_eq_sum_ones]
    refine Finset.sum_congr rfl fun x hx => ?_
    simp only [initK]
    rw [if_pos (Finset.mem_filter.mp hx).2]

/-- The step always finalizes exactly the dequeued cell. -/
theorem kstep_done {n : Nat} (next : Fin n → Option (Fin n)) (s : KState n) (u : Fin n)
    (rest : List (Fin n)) :
    (kstep next s u rest).done = Function.update s.done u true := by
  rcases hnu : next u with _ | t <;> simp [kstep, hnu]

/-- One Kahn step preserves the invariants and decreases the number of valid
    unfinalized cells by exactly one. -/
theorem kinv_step {n : Nat} (next : Fin n → Option (Fin n)) (valid : Fin n → Bool)
    (rank : Fin n → Nat)
    (hedge : ∀ u t, next u = some t → valid u = true ∧ valid t = true)
    (hrank : ∀ u t, next u = some t → rank t < rank u)
    (s : KState n) (u : Fin n) (rest : List (Fin n))
    (hq : s.queue = u :: rest) (inv : KInv n next valid s) :
    KInv n next valid (kstep next s u rest)
    ∧ kmeasure valid (kstep next s u rest) = kmeasure valid s - 1
    ∧ 1 ≤ kmeasure valid s := by
  have huq : u ∈ s.queue := by
    rw [hq]
    exact List.mem_cons_self u rest
  obtain ⟨huv, hud, hui⟩ := (inv.queue_iff u).mp huq
  have hnodup := inv.nodup
  rw [hq, List.nodup_cons] at hnodup
  have hur : u ∉ rest := hnodup.1
  have hrest_nodup : rest.Nodup := hnodup.2
  have hrest_sub : ∀ x ∈ rest, x ∈ s.queue := by
    rw [hq]
    exact fun x hx => List.mem_cons_of_mem u hx
  have hpreds_done : ∀ p, next p = some u → s.done p = true := by
    intro p hp
    by_contra hpd
    have hpd' : s.done p = false := by
      revert hpd
      cases s.done p <;> simp
    have hpmem : p ∈ Finset.univ.filter fun q => next q = some u ∧ s.done q = false :=
      Finset.mem_filter.mpr ⟨Finset.mem_univ p, hp, hpd'⟩
    have hcard : predCount next s.done u = 0 := by
      rw [← inv.indeg_eq]
      exact hui
    rw [predCount, Finset.card_eq_zero] at hcard
    rw [hcard] at hpmem
    exact absurd hpmem (Finset.not_mem_empty p)
  have hupd_true : ∀ p, s.done p = true → Function.update s.done u true p = true := by
    intro p hp
    by_cases hpu : p = u
    · subst hpu
      simp
    · rw [Function.update_noteq hpu]
      exact hp
  have humeas : u ∈ Finset.univ.filter fun c => valid c = true ∧ s.done c = false :=
    Finset.mem_filter.mpr ⟨Finset.mem_univ u, huv, hud⟩
  have hmeas_set : (Finset.univ.filter fun c =>
      valid c = true ∧ Function.update s.done u true c = false)
      = (Finset.univ.filter fun c => valid c = true ∧ s.done c = false).erase u := by
    ext x
    by_cases hx : x = u
    · subst hx
      simp
    · simp only [Finset.mem_erase, Finset.mem_filter, Finset.mem_univ, true_and,
        Function.update_noteq hx]
      tauto
  have hm : kmeasure valid (kstep next s u rest) = kmeasure valid s - 1 := by
    rw [kmeasure, kstep_done, hmeas_set, Finset.card_erase_of_mem humeas]
    rfl
  have hmeas_pos : 1 ≤ kmeasure valid s := by
    have := Finset.card_pos.mpr ⟨u, humeas⟩
    exact this
  refine ⟨?_, hm, hmeas_pos⟩
  rcases hnu : next u with _ | t
  · -- u is an outlet: only the queue and done set change
    have hstep : kstep next s u rest
        = ⟨s.acc, s.indeg, rest, Function.update s.done u true⟩ := by
      simp [kstep, hnu]
    rw [hstep]
    constructor
    · exact hrest_nodup
    · intro c
      show s.indeg c = predCount next (Function.update s.done u true) c
      have hpc : predCount next (Function.update s.done u true) c
          = predCount next s.done c := by
        rw [predCount, predCount]
        congr 1
        apply Finset.filter_congr
        intro p _
        by_cases hp : p = u
        · subst hp
          simp [hnu]
        · simp [Function.update_noteq hp]
      rw [hpc]
      exact inv.indeg_eq c
    · intro c
      dsimp only
      by_cases hc : c = u
      · subst hc
        refine iff_of_false hur ?_
        rintro ⟨-, h, -⟩
        rw [Function.update_same] at h
        exact absurd h (by simp)
      · have hmem : c ∈ rest ↔ c ∈ s.queue := by
          rw [hq]
          simp [hc]
        rw [hmem, inv.queue_iff c, Function.update_noteq hc]
    · intro c hc
      dsimp only at hc
      by_cases hcu : c = u
      · subst hcu
        exact huv
      · rw [Function.update_noteq hcu] at hc
        exact inv.done_valid c hc
    · intro c hc p hp
      dsimp only at hc ⊢
      by_cases hcu : c = u
      · subst hcu
        exact hupd_true p (hpreds_done p hp)
      · rw [Function.update_noteq hcu] at hc
        exact hupd_true p (inv.done_preds c hc p hp)
    · exact inv.acc_invalid
    · show (Finset.univ.filter fun c =>
          valid c = true ∧ (Function.update s.done u true c = false ∨ next c = none)).sum s.acc
        = _
      have hset : (Finset.univ.filter fun c =>
          valid c = true ∧ (Function.update s.done u true c = false ∨ next c = none))
          = Finset.univ.filter fun c => valid c = true ∧ (s.done c = false ∨ next c = none) := by
        apply Finset.filter_congr
        intro x _
        by_cases hx : x = u
        · subst hx
          simp [hnu, hud]
        · rw [Function.update_noteq hx]
      rw [hset]
      exact inv.acc_mass
  · -- u drains to t
    have hvt : valid t = true := (hedge u t hnu).2
    have hut_ne : u ≠ t := by
      intro h
      subst h
      exact absurd (hrank u u hnu) (lt_irrefl _)
    have hdt : s.done t = false := by
      by_contra hdt'
      have hdt'' : s.done t = true := by
        revert hdt'
        cases s.done t <;> simp
      have hd := inv.done_preds t hdt'' u hnu
      rw [hud] at hd
      exact absurd hd (by simp)
    have hu_in_predt : u ∈ Finset.univ.filter fun p => next p = some t ∧ s.done p = false :=
      Finset.mem_filter.mpr ⟨Finset.mem_univ u, hnu, hud⟩
    have hindeg_t_pos : 1 ≤ s.indeg t := by
      rw [inv.indeg_eq t, predCount]
      exact Finset.card_pos.mpr ⟨u, hu_in_predt⟩
    have ht_notin_queue : t ∉ s.queue := by
      intro ht
      have := ((inv.queue_iff t).mp ht).2.2
      omega
    have ht_notin_rest : t ∉ rest := fun h => ht_notin_queue (hrest_sub t h)
    have hpred_t : predCount next (Function.update s.done u true) t
        = predCount next s.done t - 1 := by
      rw [predCount, predCount]
      have hset : (Finset.univ.filter fun p =>
          next p = some t ∧ Function.update s.done u true p = false)
          = (Finset.univ.filter fun p => next p = some t ∧ s.done p = false).erase u := by
        ext p
        by_cases hp : p = u
        · subst hp
          simp
        · simp only [Finset.mem_erase, Finset.mem_filter, Finset.mem_univ, true_and,
            Function.update_noteq hp]
          tauto
      rw [hset, Finset.card_erase_of_mem hu_in_predt]
    have hpred_other : ∀ c, c ≠ t → predCount next (Function.update s.done u true) c
        = predCount next s.done c := by
      intro c hct
      rw [predCount, predCount]
      congr 1
      apply Finset.filter_congr
      intro p _
      by_cases hp : p = u
      · subst hp
        simp [hnu, Ne.symm hct]
      · simp [Function.update_noteq hp]
    have hstep : kstep next s u rest
        = ⟨Function.update s.acc t (s.acc t + s.acc u),
           Function.update s.indeg t (s.indeg t - 1),
           if s.indeg t - 1 = 0 then rest ++ [t] else rest,
           Function.update s.done u true⟩ := by
      simp [kstep, hnu]
    rw [hstep]
    constructor
    · show (if s.indeg t - 1 = 0 then rest ++ [t] else rest).Nodup
      by_cases hd0 : s.indeg t - 1 = 0
      · rw [if_pos hd0, List.nodup_append]
        refine ⟨hrest_nodup, List.nodup_singleton t, ?_⟩
        intro a ha hat
        rw [List.mem_singleton] at hat
        subst hat
        exact ht_notin_rest ha
      · rw [if_neg hd0]
        exact hrest_nodup
    · intro c
      show Function.update s.indeg t (s.indeg t - 1) c
          = predCount next (Function.update s.done u true) c
      by_cases hct : c = t
      · subst hct
        rw [Function.update_same, hpred_t, inv.indeg_eq c]
      · rw [Function.update_noteq hct, hpred_other c hct, inv.indeg_eq c]
    · intro c
      dsimp only
      by_cases hd0 : s.indeg t - 1 = 0
      · rw [if_pos hd0]
        by_cases hct : c = t
        · subst hct
          refine iff_of_true (by simp) ⟨hvt, ?_, ?_⟩
          · rw [Function.update_noteq (Ne.symm hut_ne)]
            exact hdt
          · rw [Function.update_same]
            exact hd0
        · by_cases hcu : c = u
          · subst hcu
            refine iff_of_false ?_ ?_
            · intro h
              rcases List.mem_append.mp h with h1 | h1
              · exact absurd h1 hur
              · exact absurd (List.mem_singleton.mp h1) hut_ne
            · rintro ⟨-, h, -⟩
              rw [Function.update_same] at h
              exact absurd h (by simp)
          · have hmem : c ∈ rest ++ [t] ↔ c ∈ rest := by
              simp [List.mem_append, List.mem_singleton, hct]
            have hmem2 : c ∈ rest ↔ c ∈ s.queue := by
              rw [hq]
              simp [hcu]
            rw [hmem, hmem2, inv.queue_iff c, Function.update_noteq hcu,
              Function.update_noteq hct]
      · rw [if_neg hd0]
        by_cases hct : c = t
        · subst hct
          constructor
          · intro h
            exact absurd (hrest_sub _ h) ht_notin_queue
          · rintro ⟨-, -, h⟩
            rw [Function.update_same] at h
            exact absurd h hd0
        · by_cases hcu : c = u
          · subst hcu
            constructor
            · intro h
              exact absurd h hur
            · rintro ⟨-, h, -⟩
              rw [Function.update_same] at h
              exact absurd h (by simp)
          · have hmem2 : c ∈ rest ↔ c ∈ s.queue := by
              rw [hq]
              simp [hcu]
            rw [hmem2, inv.queue_iff c, Function.update_noteq hcu,
              Function.update_noteq hct]
    · intro c hc
      dsimp only at hc
      by_cases hcu : c = u
      · subst hcu
        exact huv
      · rw [Function.update_noteq hcu] at hc
        exact inv.done_valid c hc
    · intro c hc p hp
      dsimp only at hc ⊢
      by_cases hcu : c = u
      · subst hcu
        exact hupd_true p (hpreds_done p hp)
      · rw [Function.update_noteq hcu] at hc
        exact hupd_true p (inv.done_preds c hc p hp)
    · intro c hcv
      show Function.update s.acc t (s.acc t + s.acc u) c = 0
      by_cases hct : c = t
      · subst hct
        rw [hvt] at hcv
        exact absurd hcv (by simp)
      · rw [Function.update_noteq hct]
        exact inv.acc_invalid c hcv
    · show (Finset.univ.filter fun c => valid c = true ∧
          (Function.update s.done u true c = false ∨ next c = none)).sum
          (Function.update s.acc t (s.acc t + s.acc u)) = _
      have hu_in_W : u ∈ Finset.univ.filter fun c =>
          valid c = true ∧ (s.done c = false ∨ next c = none) :=
        Finset.mem_filter.mpr ⟨Finset.mem_univ u, huv, Or.inl hud⟩
      have hW' : (Finset.univ.filter fun c => valid c = true ∧
          (Function.update s.done u true c = false ∨ next c = none))
          = (Finset.univ.filter fun c => valid c = true ∧
              (s.done c = false ∨ next c = none)).erase u := by
        ext x
        by_cases hx : x = u
        · subst hx
          simp [hnu, huv]
        · simp only [Finset.mem_erase, Finset.mem_filter, Finset.mem_univ, true_and,
            Function.update_noteq hx]
          tauto
      have ht_in : t ∈ (Finset.univ.filter fun c => valid c = true ∧
          (s.done c = false ∨ next c = none)).erase u :=
        Finset.mem_erase.mpr ⟨Ne.symm hut_ne,
          Finset.mem_filter.mpr ⟨Finset.mem_univ t, hvt, Or.inl hdt⟩⟩
      rw [hW', Finset.sum_update_of_mem ht_in, Finset.sdiff_singleton_eq_erase]
      have h1 : s.acc t + ∑ x ∈ ((Finset.univ.filter fun c => valid c = true ∧
          (s.done c = false ∨ next c = none)).erase u).erase t, s.acc x
          = ∑ x ∈ (Finset.univ.filter fun c => valid c = true ∧
              (s.done c = false ∨ next c = none)).erase u, s.acc x :=
        Finset.add_sum_erase _ s.acc ht_in
      have h2 : s.acc u + ∑ x ∈ (Finset.univ.filter fun c => valid c = true ∧
          (s.done c = false ∨ next c = none)).erase u, s.acc x
          = ∑ x ∈ Finset.univ.filter fun c => valid c = true ∧
              (s.done c = false ∨ next c = none), s.acc x :=
        Finset.add_sum_erase _ s.acc hu_in_W
      have hmass := inv.acc_mass
      linarith [h1, h2]

/-- Running Kahn's algorithm with fuel at least the number of valid unfinalized cells
    empties the queue and preserves the invariants. -/
theorem krun_spec {n : Nat} (next : Fin n → Option (Fin n)) (valid : Fin n → Bool)
    (rank : Fin n → Nat)
    (hedge : ∀ u t, next u = some t → valid u = true ∧ valid t = true)
    (hrank : ∀ u t, next u = some t → rank t < rank u) :
    ∀ (fuel : Nat) (s : KState n), KInv n next valid s → kmeasure valid s ≤ fuel →
      (krun next fuel s).queue = [] ∧ KInv n next valid (krun next fuel s) := by
  intro fuel
  induction fuel with
  | zero =>
    intro s inv hf
    have hempty : s.queue = [] := by
      rcases hq : s.queue with _ | ⟨u, rest⟩
      · rfl
      · exfalso
        obtain ⟨-, -, hpos⟩ := kinv_step next valid rank hedge hrank s u rest hq inv
        omega
    exact ⟨hempty, inv⟩
  | succ fuel ih =>
    intro s inv hf
    rcases hq : s.queue with _ | ⟨u, rest⟩
    · have hstop : krun next (fuel + 1) s = s := by
        simp [krun, hq]
      rw [hstop]
      exact ⟨hq, inv⟩
    · obtain ⟨inv', hm, hpos⟩ := kinv_step next valid rank hedge hrank s u rest hq inv
      have hrec := ih (kstep next s u rest) inv' (by omega)
      have hkr : krun next (fuel + 1) s = krun next fuel (kstep next s u rest) := by
        simp [krun, hq]
      rw [hkr]
      exact hrec

/-- When the queue is empty and the drainage graph is acyclic, every valid cell has
    been finalized. -/
theorem queue_empty_all_done {n : Nat} (next : Fin n → Option (Fin n))
    (valid : Fin n → Bool) (rank : Fin n → Nat)
    (hedge : ∀ u t, next u = some t → valid u = true ∧ valid t = true)
    (hrank : ∀ u t, next u = some t → rank t < rank u)
    (s : KState n) (inv : KInv n next valid s) (hq : s.queue = [])
    (c : Fin n) (hcv : valid c = true) : s.done c = true := by
  by_contra hcd
  have hcd' : s.done c = false := by
    revert hcd
    cases s.done c <;> simp
  have hU : (Finset.univ.filter fun x => valid x = true ∧ s.done x = false).Nonempty :=
    ⟨c, Finset.mem_filter.mpr ⟨Finset.mem_univ c, hcv, hcd'⟩⟩
  obtain ⟨m, hmU, hmax⟩ := Finset.exists_max_image _ rank hU
  obtain ⟨-, hmv, hmd⟩ := Finset.mem_filter.mp hmU
  have hmq : m ∉ s.queue := by
    rw [hq]
    exact List.not_mem_nil m
  have hindeg : s.indeg m ≠ 0 := fun h0 =>
    hmq ((inv.queue_iff m).mpr ⟨hmv, hmd, h0⟩)
  have hpos : 0 < predCount next s.done m := by
    have := inv.indeg_eq m
    omega
  rw [predCount, Finset.card_pos] at hpos
  obtain ⟨p, hp⟩ := hpos
  obtain ⟨-, hpm, hpd⟩ := Finset.mem_filter.mp hp
  have hpv : valid p = true := (hedge p m hpm).1
  have hpU : p ∈ Finset.univ.filter fun x => valid x = true ∧ s.done x = false :=
    Finset.mem_filter.mpr ⟨Finset.mem_univ p, hpv, hpd⟩
  have h1 := hmax p hpU
  have h2 := hrank p m hpm
  omega

/-- Mass conservation of the full Kahn run: the accumulation summed over the valid
    outlet cells equals the number of valid cells, and invalid cells accumulate 0. -/
theorem kahn_mass {n : Nat} (next : Fin n → Option (Fin n)) (valid : Fin n → Bool)
    (rank : Fin n → Nat)
    (hedge : ∀ u t, next u = some t → valid u = true ∧ valid t = true)
    (hrank : ∀ u t, next u = some t → rank t < rank u) :
    ((Finset.univ.filter fun c => valid c = true ∧ next c = none).sum
        (krun next n (initK n valid next)).acc
      = (Finset.univ.filter fun c => valid c = true).card)
    ∧ ∀ c, valid c = false → (krun next n (initK n valid next)).acc c = 0 := by
  have hinit := kinv_init next valid
  have hfuel : kmeasure valid (initK n valid next) ≤ n := by
    calc kmeasure valid (initK n valid next)
        ≤ Finset.univ.card := Finset.card_filter_le _ _
      _ = n := by simp
  obtain ⟨hq, hinv⟩ := krun_spec next valid rank hedge hrank n (initK n valid next)
    hinit hfuel
  have hdone : ∀ c, valid c = true → (krun next n (initK n valid next)).done c = true :=
    fun c hc => queue_empty_all_done next valid rank hedge hrank _ hinv hq c hc
  constructor
  · have hset : (Finset.univ.filter fun c => valid c = true ∧
        ((krun next n (initK n valid next)).done c = false ∨ next c = none))
        = Finset.univ.filter fun c => valid c = true ∧ next c = none := by
      apply Finset.filter_congr
      intro x _
      by_cases hv : valid x = true
      · simp [hv, hdone x hv]
      · simp [hv]
    rw [← hset]
    exact hinv.acc_mass
  · exact hinv.acc_invalid

/-- Only valid cells have a drainage target. -/
theorem gnext_valid_source (g : DirGrid) (i t : Fin g.size) (h : g.next i = some t) :
    g.validAt i = true := by
  by_contra hv
  have hv' : g.validAt i = false := by
    revert hv
    cases g.validAt i <;> simp
  simp [DirGrid.next, hv'] at h

/-- Valid cells with direction code `NONE` have no drainage target. -/
theorem gnext_none_of_NONE (g : DirGrid) (i : Fin g.size)
    (hcode : g.code (g.row i) (g.col i) = DirCode.NONE) : g.next i = none := by
  simp [DirGrid.next, hcode, DirCode.offset]

/-- C2: on every valid direction grid — each cell drains to at most one neighbor by
    construction, drainage targets are valid cells, codes of valid cells point into
    the grid, and there are no cycles (every drainage path reaches an outlet within
    `size` steps) — the flow accumulation produced by Kahn's algorithm sums, over the
    outlet cells (direction `NONE`), to exactly the number of valid cells. -/
theorem accumulate_mass_conservation (g : DirGrid)
    (hwf : ∀ i t, g.next i = some t → g.validAt t = true)
    (hterm : ∀ i : Fin g.size, (drainSteps g.next g.size i).isSome)
    (hcode : ∀ i : Fin g.size, g.validAt i = true →
      g.code (g.row i) (g.col i) ≠ DirCode.NONE → (g.next i).isSome) :
    (DirGrid.outletSet g).sum (accumulate g) = DirGrid.validCount g := by
  have hedge : ∀ u t, g.next u = some t → g.validAt u = true ∧ g.validAt t = true :=
    fun u t h => ⟨gnext_valid_source g u t h, hwf u t h⟩
  have hrank : ∀ u t, g.next u = some t →
      (drainSteps g.next g.size t).getD 0 < (drainSteps g.next g.size u).getD 0 :=
    fun u t h => drainSteps_rank_lt g.next hterm u t h
  obtain ⟨hmass, hinvalid⟩ := kahn_mass g.next g.validAt
    (fun c => (drainSteps g.next g.size c).getD 0) hedge hrank
  have hsub : (Finset.univ.filter fun c => g.validAt c = true ∧ g.next c = none)
      ⊆ DirGrid.outletSet g := by
    intro x hx
    obtain ⟨-, hv, hn⟩ := Finset.mem_filter.mp hx
    rw [DirGrid.outletSet, Finset.mem_filter]
    refine ⟨Finset.mem_univ x, ?_⟩
    by_contra hne
    have hs := hcode x hv hne
    rw [hn] at hs
    simp at hs
  have hzero : ∀ x ∈ DirGrid.outletSet g,
      x ∉ (Finset.univ.filter fun c => g.validAt c = true ∧ g.next c = none) →
      accumulate g x = 0 := by
    intro x hxo hxn
    rcases Bool.eq_false_or_eq_true (g.validAt x) with hv | hv
    · exfalso
      apply hxn
      refine Finset.mem_filter.mpr ⟨Finset.mem_univ x, hv, ?_⟩
      exact gnext_none_of_NONE g x (Finset.mem_filter.mp hxo).2
    · exact hinvalid x hv
  rw [← Finset.sum_subset hsub hzero]
  exact hmass

/-- Witness for C2 at a concrete all-valid 2×2 direction grid draining to one outlet. -/
theorem accumulate_mass_conservation_witness :
    (DirGrid.outletSet exDir).sum (accumulate exDir) = DirGrid.validCount exDir :=
  accumulate_mass_conservation exDir (by decide) (by decide) (by decide)
